import Mathlib

/-!
Verification of the expense-tracker balance/settlement engine.

The engine lives in `src/app.js` (`calculateBalances`, lines 773-796;
`calculateSettlements`, lines 798-839; `escapeCsvField`, lines 159-166).
JavaScript numbers are embedded as exact rationals (`ℚ`); a JS object used
as a string-keyed map is embedded as an association list kept in insertion
order with unique keys, matching JS object key semantics for the
non-numeric member names used here.
-/

namespace ExpenseTracker

/-- An expense record as stored by the app (`src/app.js`): `id`,
`description` and `timestamp` are opaque to the engine; the engine reads
`amount`, `paidBy` and `splitBetween`. -/
structure Expense where
  id : String
  description : String
  amount : ℚ
  paidBy : String
  splitBetween : List String
  timestamp : Int
deriving DecidableEq, Repr

/-- The balance mapping: a JS object keyed by member name, embedded as an
association list in insertion order. -/
abbrev Balances := List (String × ℚ)

/-- JS `balances[name] = 0` (`src/app.js` line 778): overwrite in place if
the key exists, otherwise append the new key. -/
def setZero (b : Balances) (name : String) : Balances :=
  if b.any (fun p => p.1 = name) then
    b.map (fun p => if p.1 = name then (p.1, 0) else p)
  else
    b ++ [(name, (0 : ℚ))]

/-- JS property read `balances[name]`: `none` plays the role of
`undefined`. -/
def getVal (b : Balances) (name : String) : Option ℚ :=
  (b.find? (fun p => p.1 = name)).map Prod.snd

/-- JS `balances[name] += x` on an existing key. -/
def addVal (b : Balances) (name : String) (x : ℚ) : Balances :=
  b.map (fun p => if p.1 = name then (p.1, p.2 + x) else p)

/-- The body of the `expenses.forEach` loop of `calculateBalances`
(`src/app.js` lines 781-793): credit the payer with the full amount when
the payer has an entry, then debit each `splitBetween` name that has an
entry by `amount / splitBetween.length`. -/
def applyExpense (b : Balances) (e : Expense) : Balances :=
  let splitAmount := e.amount / (e.splitBetween.length : ℚ)
  let b1 := if (getVal b e.paidBy).isSome then addVal b e.paidBy e.amount else b
  e.splitBetween.foldl
    (fun acc person =>
      if (getVal acc person).isSome then addVal acc person (-splitAmount) else acc)
    b1

/-- `calculateBalances` (`src/app.js` lines 773-796), with the members and
expenses snapshot passed explicitly (the source reads them from the
ambient `appData`): initialize every member to `0`, then fold the
expenses. Total by construction — the source raises no errors. -/
def calculateBalances (members : List String) (expenses : List Expense) : Balances :=
  expenses.foldl applyExpense (members.foldl setZero [])

/-- A suggested settlement `{from, to, amount}` (`src/app.js` lines
824-828). -/
structure Settlement where
  «from» : String
  «to» : String
  amount : ℚ
deriving DecidableEq, Repr

/-- `Math.round(q * 100) / 100` (`src/app.js` line 827); JS `Math.round`
rounds half toward positive infinity, i.e. `⌊x + 1/2⌋`. -/
def round2 (q : ℚ) : ℚ := (⌊q * 100 + 1/2⌋ : ℚ) / 100

/-- The debtor list of `calculateSettlements` (`src/app.js` lines
805-811): entries with balance `< -0.01`, keyed by name with the absolute
value as amount, in mapping order. -/
def toDebtors (b : Balances) : List (String × ℚ) :=
  (b.filter (fun p => p.2 < -(1/100))).map (fun p => (p.1, |p.2|))

/-- The creditor list of `calculateSettlements` (`src/app.js` lines
805-811): entries with balance `> 0.01`, in mapping order (the source's
`else if` is equivalent to a plain filter since no balance is both
`< -0.01` and `> 0.01`). -/
def toCreditors (b : Balances) : List (String × ℚ) :=
  b.filter (fun p => p.2 > 1/100)

/-- `arr.sort((a, b) => b.amount - a.amount)` (`src/app.js` lines
813-814): stable sort, descending by amount. -/
def sortByAmountDesc (l : List (String × ℚ)) : List (String × ℚ) :=
  l.mergeSort (fun a b => decide (b.2 ≤ a.2))

/-- The two-cursor greedy loop of `calculateSettlements` (`src/app.js`
lines 816-836).  The source matches `amount = min(debtor.amount,
creditor.amount)`, emits a settlement when `amount > 0.01`, subtracts
`amount` from both sides, then advances the debtor cursor when its
remaining amount is `< 0.01` and the creditor cursor when its remaining
amount is `< 0.01`.  Advancing a cursor is dropping the list head here;
a cursor that stays put keeps its entry with the reduced amount.  The
branch on `d.2 ≤ c.2` makes the source's advance conditions explicit:
the side achieving the minimum is reduced to exactly `0 < 0.01` and so
always advances (`settleLoop_step` below proves this matches the
source's two independent `< 0.01` tests verbatim). -/
def settleLoop : List (String × ℚ) → List (String × ℚ) → List Settlement
  | [], _ => []
  | _ :: _, [] => []
  | d :: ds, c :: cs =>
    let amount := min d.2 c.2
    let emit := if amount > 1/100 then [⟨d.1, c.1, round2 amount⟩] else []
    if d.2 ≤ c.2 then
      if c.2 - amount < 1/100 then emit ++ settleLoop ds cs
      else emit ++ settleLoop ds ((c.1, c.2 - amount) :: cs)
    else
      if d.2 - amount < 1/100 then emit ++ settleLoop ds cs
      else emit ++ settleLoop ((d.1, d.2 - amount) :: ds) cs
  termination_by ds cs => ds.length + cs.length
  decreasing_by all_goals simp +arith [List.length]

/-- `calculateSettlements` (`src/app.js` lines 798-839), with the balance
mapping passed explicitly per the engine contract (the source recomputes
it via `calculateBalances()` on entry). -/
def calculateSettlements (balances : Balances) : List Settlement :=
  settleLoop (sortByAmountDesc (toDebtors balances)) (sortByAmountDesc (toCreditors balances))

/-- Applying one settlement to a balance mapping, as the spec's
settlement-correctness property prescribes: subtract the amount from
`from`'s balance and add it to `to`'s balance. -/
def applySettlement (b : Balances) (s : Settlement) : Balances :=
  addVal (addVal b s.«from» (-s.amount)) s.«to» s.amount

/-- Applying a whole settlement list in order. -/
def applySettlements (b : Balances) (l : List Settlement) : Balances :=
  l.foldl applySettlement b

/-- The net effect of a single expense on the balance of member `n`
(read off `src/app.js` lines 781-793): the full amount if `n` is the
payer, minus one share per occurrence of `n` in `splitBetween`. -/
def contribution (n : String) (e : Expense) : ℚ :=
  (if e.paidBy = n then e.amount else 0)
    - (e.splitBetween.count n : ℚ) * (e.amount / (e.splitBetween.length : ℚ))

/-- Doubling every double-quote character: the embedding of the JS regex
replace `s.replace(/"/g, '""')` (`src/app.js` line 163). -/
def doubleQuotes (s : String) : String :=
  String.mk (s.data.foldr (fun c acc => if c = '"' then '"' :: '"' :: acc else c :: acc) [])

/-- `escapeCsvField` (`src/app.js` lines 159-166) on a string argument
(the `null`/`undefined` branch does not arise for a `String` input):
quote and double embedded quotes when the field contains a comma, a
double quote or a newline; otherwise return it unchanged.  JS
`s.includes(c)` for a single character is character membership. -/
def escapeCsvField (s : String) : String :=
  if s.data.contains ',' || s.data.contains '"' || s.data.contains '\n' then
    "\"" ++ doubleQuotes s ++ "\""
  else s

/-! ### Structure of the balance mapping -/

theorem getVal_map_keyed (b : Balances) (f : String → ℚ → ℚ) (m : String) :
    getVal (b.map (fun p => (p.1, f p.1 p.2))) m = (getVal b m).map (f m) := by
  induction b with
  | nil => rfl
  | cons p b ih =>
    simp only [List.map_cons, getVal, List.find?_cons] at *
    by_cases h : p.1 = m
    · subst h; simp
    · simpa [h] using ih

theorem addVal_eq_map_keyed (b : Balances) (n : String) (x : ℚ) :
    addVal b n x = b.map (fun p => (p.1, if p.1 = n then p.2 + x else p.2)) := by
  unfold addVal
  refine List.map_congr_left fun p _ => ?_
  by_cases h : p.1 = n <;> simp [h]

theorem condAdd_eq (b : Balances) (n : String) (x : ℚ) :
    (if (getVal b n).isSome then addVal b n x else b)
      = b.map (fun p => (p.1, p.2 + if n = p.1 then x else 0)) := by
  by_cases h : (getVal b n).isSome
  · rw [if_pos h, addVal_eq_map_keyed]
    refine List.map_congr_left fun p _ => ?_
    by_cases hp : p.1 = n
    · simp [hp]
    · have hnp : ¬(n = p.1) := fun hn => hp hn.symm
      simp [hp, hnp]
  · rw [if_neg h]
    have hfind : b.find? (fun p => p.1 = n) = none := by
      rcases hf : b.find? (fun p => p.1 = n) with _ | q
      · exact hf
      · exact absurd (by simp [getVal, hf]) h
    have hnone : ∀ p ∈ b, ¬(p.1 = n) := by
      intro p hp
      have := List.find?_eq_none.mp hfind p hp
      simpa using this
    conv_lhs => rw [← List.map_id b]
    refine List.map_congr_left fun p hp => ?_
    have : ¬(n = p.1) := fun hn => hnone p hp hn.symm
    simp [this]

theorem debit_fold (l : List String) (s : ℚ) :
    ∀ b : Balances,
      l.foldl (fun acc person =>
          if (getVal acc person).isSome then addVal acc person (-s) else acc) b
        = b.map (fun p => (p.1, p.2 - (l.count p.1 : ℚ) * s)) := by
  induction l with
  | nil =>
    intro b
    simp only [List.foldl_nil, List.count_nil, Nat.cast_zero, zero_mul, sub_zero]
    exact (List.map_id b).symm
  | cons x xs ih =>
    intro b
    rw [List.foldl_cons, condAdd_eq, ih, List.map_map]
    refine List.map_congr_left fun p _ => ?_
    simp only [Function.comp_apply, Prod.mk.injEq, true_and]
    have hcount : ((x :: xs).count p.1 : ℚ) = (xs.count p.1 : ℚ) + if x = p.1 then 1 else 0 := by
      rw [List.count_cons]
      by_cases h : x = p.1 <;> simp [h]
    rw [hcount]
    by_cases h : x = p.1 <;> simp [h] <;> ring

theorem applyExpense_eq (b : Balances) (e : Expense) :
    applyExpense b e = b.map (fun p => (p.1, p.2 + contribution p.1 e)) := by
  unfold applyExpense
  rw [condAdd_eq, debit_fold, List.map_map]
  refine List.map_congr_left fun p _ => ?_
  simp only [Function.comp_apply, contribution, Prod.mk.injEq, true_and]
  ring

theorem foldl_applyExpense (es : List Expense) :
    ∀ b : Balances,
      es.foldl applyExpense b
        = b.map (fun p => (p.1, p.2 + (es.map (fun e => contribution p.1 e)).sum)) := by
  induction es with
  | nil =>
    intro b
    simp only [List.foldl_nil, List.map_nil, List.sum_nil, add_zero]
    exact (List.map_id b).symm
  | cons e es ih =>
    intro b
    rw [List.foldl_cons, applyExpense_eq, ih, List.map_map]
    refine List.map_congr_left fun p _ => ?_
    simp only [Function.comp_apply, List.map_cons, List.sum_cons, Prod.mk.injEq, true_and]
    ring

theorem getVal_setZero (b : Balances) (n m : String) :
    getVal (setZero b n) m = if m = n then some 0 else getVal b m := by
  unfold setZero
  by_cases h : b.any (fun p => p.1 = n)
  · rw [if_pos h]
    have hmap : b.map (fun p => if p.1 = n then (p.1, (0:ℚ)) else p)
        = b.map (fun p => (p.1, if p.1 = n then (0:ℚ) else p.2)) := by
      refine List.map_congr_left fun p _ => ?_
      by_cases hp : p.1 = n <;> simp [hp]
    rw [hmap, getVal_map_keyed b (fun k v => if k = n then 0 else v) m]
    by_cases hm : m = n
    · subst hm
      rcases hsome : getVal b m with _ | v
      · exfalso
        rcases List.any_eq_true.mp h with ⟨p, hp, hpn⟩
        have : b.find? (fun p => p.1 = m) = none := by
          rcases hf : b.find? (fun p => p.1 = m) with _ | q
          · exact hf
          · simp [getVal, hf] at hsome
        have := List.find?_eq_none.mp this p hp
        simp_all
      · simp
    · have : ∀ v : ℚ, (if m = n then (0:ℚ) else v) = v := fun v => by simp [hm]
      simp [hm]
  · rw [if_neg h]
    have hnone : ∀ p ∈ b, ¬(p.1 = n) := by
      intro p hp
      have := List.any_eq_false.mp (Bool.eq_false_iff.mpr h) p hp
      simpa using this
    by_cases hm : m = n
    · subst hm
      have hfind : b.find? (fun p => p.1 = m) = none :=
        List.find?_eq_none.mpr (by intro p hp; simpa using hnone p hp)
      simp [getVal, List.find?_append, hfind]
    · rcases hf : b.find? (fun p => p.1 = m) with _ | q
      · simp only [getVal, List.find?_append, hf, Option.none_or, List.find?_cons]
        have hnm : ¬(n = m) := fun hn => hm hn.symm
        simp [hm, hnm]
      · simp [getVal, List.find?_append, hf, hm]

theorem getVal_foldl_setZero (members : List String) :
    ∀ (b : Balances) (m : String),
      getVal (members.foldl setZero b) m = if m ∈ members then some 0 else getVal b m := by
  induction members with
  | nil => intro b m; simp
  | cons x xs ih =>
    intro b m
    rw [List.foldl_cons, ih, getVal_setZero]
    by_cases h1 : m ∈ xs <;> by_cases h2 : m = x <;> simp [h1, h2]

theorem getVal_init (members : List String) (m : String) :
    getVal (members.foldl setZero []) m = if m ∈ members then some 0 else none := by
  rw [getVal_foldl_setZero]
  rfl

theorem getVal_isSome_iff_mem_keys (b : Balances) (m : String) :
    (getVal b m).isSome ↔ m ∈ b.map Prod.fst := by
  unfold getVal
  rcases hf : b.find? (fun p => p.1 = m) with _ | q
  · rw [hf]
    simp only [Option.map_none', Option.isSome_none, Bool.false_eq_true, false_iff]
    intro hm
    rcases List.mem_map.mp hm with ⟨p, hp, rfl⟩
    have := List.find?_eq_none.mp hf p hp
    simp at this
  · rw [hf]
    simp only [Option.map_some', Option.isSome_some, true_iff]
    exact List.mem_map.mpr ⟨q, List.mem_of_find?_eq_some hf, by simpa using List.find?_some hf⟩

theorem mem_keys_init (members : List String) (m : String) :
    m ∈ (members.foldl setZero []).map Prod.fst ↔ m ∈ members := by
  rw [← getVal_isSome_iff_mem_keys, getVal_init]
  by_cases h : m ∈ members <;> simp [h]

theorem keys_setZero (b : Balances) (n : String) :
    ((setZero b n).map Prod.fst).Nodup ↔ (b.map Prod.fst).Nodup := by
  unfold setZero
  by_cases h : b.any (fun p => p.1 = n)
  · rw [if_pos h]
    have : (b.map (fun p => if p.1 = n then (p.1, (0:ℚ)) else p)).map Prod.fst
        = b.map Prod.fst := by
      rw [List.map_map]
      refine List.map_congr_left fun p _ => ?_
      by_cases hp : p.1 = n <;> simp [hp]
    rw [this]
  · rw [if_neg h]
    have hnone : n ∉ b.map Prod.fst := by
      intro hmem
      rcases List.mem_map.mp hmem with ⟨p, hp, rfl⟩
      have := List.any_eq_false.mp (Bool.eq_false_iff.mpr h) p hp
      simp at this
    constructor
    · intro hd
      simpa using (List.nodup_append.mp (by simpa using hd)).1
    · intro hd
      simp [List.nodup_append, hd, hnone]

theorem nodup_keys_foldl_setZero (members : List String) :
    ∀ b : Balances, (b.map Prod.fst).Nodup →
      ((members.foldl setZero b).map Prod.fst).Nodup := by
  induction members with
  | nil => intro b hb; simpa using hb
  | cons x xs ih =>
    intro b hb
    exact ih (setZero b x) ((keys_setZero b x).mpr hb)

theorem nodup_keys_init (members : List String) :
    ((members.foldl setZero []).map Prod.fst).Nodup :=
  nodup_keys_foldl_setZero members [] (by simp)

theorem keys_calculateBalances (members : List String) (es : List Expense) :
    (calculateBalances members es).map Prod.fst
      = (members.foldl setZero []).map Prod.fst := by
  unfold calculateBalances
  rw [foldl_applyExpense, List.map_map]
  rfl

/-- Pointwise value of `calculateBalances`: a member's balance is the sum
of that member's own contributions over the expense list; non-members
have no entry. -/
theorem getVal_calculateBalances (members : List String) (es : List Expense) (n : String) :
    getVal (calculateBalances members es) n
      = if n ∈ members then some ((es.map (fun e => contribution n e)).sum) else none := by
  unfold calculateBalances
  rw [foldl_applyExpense,
    getVal_map_keyed _ (fun k v => v + (es.map (fun e => contribution k e)).sum) n,
    getVal_init]
  by_cases h : n ∈ members <;> simp [h]

/-! ### Summation helpers -/

theorem map_sum_add {α : Type} (l : List α) (f g : α → ℚ) :
    (l.map (fun a => f a + g a)).sum = (l.map f).sum + (l.map g).sum := by
  induction l with
  | nil => simp
  | cons x xs ih => simp only [List.map_cons, List.sum_cons, ih]; ring

theorem map_sum_swap {α β : Type} (l1 : List α) (l2 : List β) (f : α → β → ℚ) :
    (l1.map (fun a => (l2.map (f a)).sum)).sum
      = (l2.map (fun y => (l1.map (fun a => f a y)).sum)).sum := by
  induction l1 with
  | nil => simp [List.sum_eq_zero]
  | cons x xs ih =>
    simp only [List.map_cons, List.sum_cons, ih]
    rw [← map_sum_add]

theorem map_sum_mul_neg {α : Type} (l : List α) (f : α → ℚ) (s : ℚ) :
    (l.map (fun a => -(f a * s))).sum = -((l.map f).sum * s) := by
  induction l with
  | nil => simp
  | cons x xs ih => simp only [List.map_cons, List.sum_cons, ih]; ring

theorem sum_if_key_notmem (b : Balances) (x : String) (v : ℚ)
    (hx : x ∉ b.map Prod.fst) :
    (b.map (fun p => if x = p.1 then v else 0)).sum = 0 := by
  refine List.sum_eq_zero fun y hy => ?_
  rcases List.mem_map.mp hy with ⟨p, hp, rfl⟩
  have : ¬(x = p.1) := fun h => hx (List.mem_map.mpr ⟨p, hp, h.symm⟩)
  simp [this]

theorem sum_if_key (b : Balances) (x : String) (v : ℚ)
    (hd : (b.map Prod.fst).Nodup) (hx : x ∈ b.map Prod.fst) :
    (b.map (fun p => if x = p.1 then v else 0)).sum = v := by
  induction b with
  | nil => simp at hx
  | cons p b ih =>
    simp only [List.map_cons, List.nodup_cons] at hd
    simp only [List.map_cons, List.mem_cons] at hx
    rw [List.map_cons, List.sum_cons]
    rcases hx with hx | hx
    · rw [if_pos hx, sum_if_key_notmem b x v (by rw [hx]; exact hd.1)]
      ring
    · have hne : ¬(x = p.1) := fun h => hd.1 (h ▸ hx)
      rw [if_neg hne, ih hd.2 hx]
      ring

theorem sum_count_keys (b : Balances) (l : List String)
    (hd : (b.map Prod.fst).Nodup) (hl : ∀ x ∈ l, x ∈ b.map Prod.fst) :
    (b.map (fun p => ((l.count p.1 : ℕ) : ℚ))).sum = (l.length : ℚ) := by
  induction l with
  | nil => simp [List.sum_eq_zero]
  | cons x xs ih =>
    have hx : x ∈ b.map Prod.fst := hl x (by simp)
    have hxs : ∀ y ∈ xs, y ∈ b.map Prod.fst := fun y hy => hl y (by simp [hy])
    have hmap : b.map (fun p => (((x :: xs).count p.1 : ℕ) : ℚ))
        = b.map (fun p => ((xs.count p.1 : ℕ) : ℚ) + if x = p.1 then 1 else 0) := by
      refine List.map_congr_left fun p _ => ?_
      rw [List.count_cons]
      by_cases h : x = p.1
      · simp [h]
      · simp [h, fun hh : p.1 = x => h hh.symm]
    rw [hmap, map_sum_add, ih hxs, sum_if_key b x 1 hd hx]
    simp only [List.length_cons]
    push_cast
    ring

/-- The sum of all members' contributions from one well-formed expense is
zero: the payer's credit exactly offsets the shares. -/
theorem sum_contribution_eq_zero (b : Balances) (e : Expense)
    (hd : (b.map Prod.fst).Nodup)
    (hp : e.paidBy ∈ b.map Prod.fst)
    (hs : ∀ x ∈ e.splitBetween, x ∈ b.map Prod.fst)
    (hne : e.splitBetween ≠ []) :
    (b.map (fun p => contribution p.1 e)).sum = 0 := by
  have h1 : b.map (fun p => contribution p.1 e)
      = b.map (fun p => (if e.paidBy = p.1 then e.amount else 0)
          + -(((e.splitBetween.count p.1 : ℕ) : ℚ)
              * (e.amount / (e.splitBetween.length : ℚ)))) := by
    refine List.map_congr_left fun p _ => ?_
    simp only [contribution]
    ring
  rw [h1, map_sum_add, sum_if_key b e.paidBy e.amount hd hp,
    map_sum_mul_neg b (fun p => ((e.splitBetween.count p.1 : ℕ) : ℚ)) _,
    sum_count_keys b e.splitBetween hd hs]
  have hlen : ((e.splitBetween.length : ℕ) : ℚ) ≠ 0 := by
    have : e.splitBetween.length ≠ 0 := by
      have := List.length_pos.mpr hne
      omega
    exact_mod_cast this
  rw [mul_comm, div_mul_cancel₀ _ hlen]
  ring

theorem val_foldl_setZero (members : List String) :
    ∀ b : Balances, (∀ p ∈ b, p.2 = (0:ℚ)) →
      ∀ p ∈ members.foldl setZero b, p.2 = (0:ℚ) := by
  induction members with
  | nil => intro b hb; simpa using hb
  | cons x xs ih =>
    intro b hb
    refine ih (setZero b x) ?_
    intro p hp
    unfold setZero at hp
    by_cases h : b.any (fun q => q.1 = x)
    · rw [if_pos h] at hp
      rcases List.mem_map.mp hp with ⟨q, hq, rfl⟩
      by_cases hqx : q.1 = x
      · simp [hqx]
      · simp [hqx, hb q hq]
    · rw [if_neg h] at hp
      rcases List.mem_append.mp hp with hp | hp
      · exact hb p hp
      · simp only [List.mem_singleton] at hp
        simp [hp]

/-! ### Claims about `calculateBalances` -/

/-- **C2** (zero-sum): for every member list and every expense list in
which each expense's `paidBy` and every name in each `splitBetween` is a
member (and each `splitBetween` is non-empty), the sum over all values of
the mapping returned by `calculateBalances` is within `1e-9` of zero
(over the exact-rational embedding the sum is exactly zero). -/
theorem claim_C2_zero_sum (members : List String) (es : List Expense)
    (hp : ∀ e ∈ es, e.paidBy ∈ members)
    (hs : ∀ e ∈ es, ∀ x ∈ e.splitBetween, x ∈ members)
    (hne : ∀ e ∈ es, e.splitBetween ≠ []) :
    |((calculateBalances members es).map Prod.snd).sum| ≤ 1 / 1000000000 := by
  have hd : ((members.foldl setZero []).map Prod.fst).Nodup := nodup_keys_init members
  have hmain : ((calculateBalances members es).map Prod.snd).sum = 0 := by
    unfold calculateBalances
    rw [foldl_applyExpense, List.map_map]
    have hsplit : (Prod.snd ∘ fun p : String × ℚ =>
        (p.1, p.2 + (es.map (fun e => contribution p.1 e)).sum))
        = fun p : String × ℚ => p.2 + (es.map (fun e => contribution p.1 e)).sum := rfl
    rw [hsplit, map_sum_add (members.foldl setZero []) Prod.snd
      (fun p => (es.map (fun e => contribution p.1 e)).sum)]
    have hz : ((members.foldl setZero []).map Prod.snd).sum = 0 := by
      refine List.sum_eq_zero fun v hv => ?_
      rcases List.mem_map.mp hv with ⟨p, hp2, rfl⟩
      exact val_foldl_setZero members [] (by simp) p hp2
    have hswap : ((members.foldl setZero []).map
          (fun p => (es.map (fun e => contribution p.1 e)).sum)).sum
        = (es.map (fun e =>
            ((members.foldl setZero []).map (fun p => contribution p.1 e)).sum)).sum :=
      map_sum_swap (members.foldl setZero []) es (fun p e => contribution p.1 e)
    rw [hz, hswap]
    have : (es.map (fun e =>
        ((members.foldl setZero []).map (fun p => contribution p.1 e)).sum)).sum = 0 := by
      refine List.sum_eq_zero fun v hv => ?_
      rcases List.mem_map.mp hv with ⟨e, he, rfl⟩
      exact sum_contribution_eq_zero _ e hd
        ((mem_keys_init members _).mpr (hp e he))
        (fun x hx => (mem_keys_init members _).mpr (hs e he x hx))
        (hne e he)
    rw [this]
    ring
  rw [hmain]
  norm_num

/-- **C3** (payer self-inclusion): for a single well-formed expense whose
payer is a member and appears in its `splitBetween` (a set, hence
`Nodup`), the payer's resulting balance is `amount - amount/n` (full
credit minus own share) and every other member in `splitBetween` ends at
`-amount/n`; all balances start from zero, so these are exactly the
changes the claim describes. -/
theorem claim_C3_payer_self_inclusion (members : List String) (e : Expense)
    (hmem : e.paidBy ∈ members)
    (hself : e.paidBy ∈ e.splitBetween)
    (hnd : e.splitBetween.Nodup) :
    getVal (calculateBalances members [e]) e.paidBy
        = some (e.amount - e.amount / (e.splitBetween.length : ℚ))
      ∧ ∀ p ∈ e.splitBetween, p ≠ e.paidBy → p ∈ members →
          getVal (calculateBalances members [e]) p
            = some (-(e.amount / (e.splitBetween.length : ℚ))) := by
  constructor
  · rw [getVal_calculateBalances, if_pos hmem]
    simp only [List.map_cons, List.map_nil, List.sum_cons, List.sum_nil, add_zero,
      contribution, if_pos rfl, List.count_eq_one_of_mem hnd hself, Nat.cast_one, one_mul]
    simp
  · intro p hp hpne hpm
    rw [getVal_calculateBalances, if_pos hpm]
    have hcount : e.splitBetween.count p = 1 := List.count_eq_one_of_mem hnd hp
    have hne2 : ¬(e.paidBy = p) := fun h => hpne h.symm
    simp only [List.map_cons, List.map_nil, List.sum_cons, List.sum_nil, add_zero,
      contribution, if_neg hne2, hcount, Nat.cast_one, one_mul, zero_sub]

/-- **C4** (silent tolerance of foreign names): `calculateBalances` is a
total function (it raises nothing), the key set of its result is exactly
the member list, and each member's balance is determined solely by the
occurrences of that member's own name — a `paidBy` or `splitBetween` name
that is not a member gets no entry and adjusts nobody's balance on its
account. -/
theorem claim_C4_foreign_names (members : List String) (es : List Expense)
    (_hne : ∀ e ∈ es, e.splitBetween ≠ []) :
    (∀ n, (getVal (calculateBalances members es) n).isSome ↔ n ∈ members)
    ∧ (∀ n ∈ members, getVal (calculateBalances members es) n
        = some ((es.map (fun e => contribution n e)).sum)) := by
  refine ⟨fun n => ?_, fun n hn => ?_⟩
  · rw [getVal_calculateBalances]
    by_cases h : n ∈ members <;> simp [h]
  · rw [getVal_calculateBalances, if_pos hn]

/-- **C5** (order-independence): permuting the expense list does not
change the mapping returned by `calculateBalances`. -/
theorem claim_C5_order_independence (members : List String) (es es2 : List Expense)
    (hperm : es.Perm es2) :
    calculateBalances members es = calculateBalances members es2 := by
  unfold calculateBalances
  rw [foldl_applyExpense, foldl_applyExpense]
  refine List.map_congr_left fun p _ => ?_
  rw [(hperm.map (fun e => contribution p.1 e)).sum_eq]

/-- Witness for C2: a concrete two-member, one-expense input. -/
theorem claim_C2_zero_sum_witness :
    |((calculateBalances ["A", "B"]
        [⟨"1", "x", 10, "A", ["A", "B"], 0⟩]).map Prod.snd).sum| ≤ 1 / 1000000000 :=
  claim_C2_zero_sum ["A", "B"] [⟨"1", "x", 10, "A", ["A", "B"], 0⟩]
    (by decide) (by decide) (by decide)

/-- Witness for C3: amount 10 split between payer A and B gives A the
balance `10 - 10/2 = 5` and B the balance `-5`. -/
theorem claim_C3_payer_self_inclusion_witness :
    getVal (calculateBalances ["A", "B"] [⟨"1", "x", 10, "A", ["A", "B"], 0⟩]) "A" = some 5
    ∧ getVal (calculateBalances ["A", "B"] [⟨"1", "x", 10, "A", ["A", "B"], 0⟩]) "B"
        = some (-5) := by
  have h := claim_C3_payer_self_inclusion ["A", "B"] ⟨"1", "x", 10, "A", ["A", "B"], 0⟩
    (by decide) (by decide) (by decide)
  constructor
  · have h1 := h.1
    norm_num at h1
    exact h1
  · have h2 := h.2 "B" (by decide) (by decide) (by decide)
    norm_num at h2
    exact h2

/-- Witness for C4: payer Z is not a member — no entry is created for Z,
while member A is still debited exactly A's own share `10/2`. -/
theorem claim_C4_foreign_names_witness :
    ¬ (getVal (calculateBalances ["A"] [⟨"1", "x", 10, "Z", ["Z", "A"], 0⟩]) "Z").isSome
    ∧ getVal (calculateBalances ["A"] [⟨"1", "x", 10, "Z", ["Z", "A"], 0⟩]) "A"
        = some (-5) := by
  have h := claim_C4_foreign_names ["A"] [⟨"1", "x", 10, "Z", ["Z", "A"], 0⟩] (by decide)
  constructor
  · rw [h.1 "Z"]
    decide
  · have h2 := h.2 "A" (by decide)
    norm_num [contribution, List.count_cons] at h2
    simpa using h2

/-- Witness for C5: swapping two concrete expenses leaves the mapping
unchanged. -/
theorem claim_C5_order_independence_witness :
    calculateBalances ["A", "B"]
        [⟨"1", "x", 10, "A", ["A", "B"], 0⟩, ⟨"2", "y", 4, "B", ["A"], 0⟩]
      = calculateBalances ["A", "B"]
        [⟨"2", "y", 4, "B", ["A"], 0⟩, ⟨"1", "x", 10, "A", ["A", "B"], 0⟩] :=
  claim_C5_order_independence _ _ _
    (List.Perm.swap (⟨"2", "y", 4, "B", ["A"], 0⟩ : Expense)
      (⟨"1", "x", 10, "A", ["A", "B"], 0⟩ : Expense) [])

/-! ### Structure of the settlement loop -/

theorem settleLoop_nil_left (cs : List (String × ℚ)) : settleLoop [] cs = [] := by
  simp [settleLoop]

theorem settleLoop_nil_right (ds : List (String × ℚ)) : settleLoop ds [] = [] := by
  cases ds <;> simp [settleLoop]

theorem emit_length_le_one (d c : String × ℚ) (a : ℚ) :
    (if a > 1/100 then [(⟨d.1, c.1, round2 a⟩ : Settlement)] else []).length ≤ 1 := by
  split_ifs <;> simp

/-- Every settlement the loop emits is between a name from the debtor
list and a name from the creditor list. -/
theorem settleLoop_names (ds cs : List (String × ℚ)) :
    ∀ s ∈ settleLoop ds cs,
      s.«from» ∈ ds.map Prod.fst ∧ s.«to» ∈ cs.map Prod.fst := by
  induction ds, cs using settleLoop.induct with
  | case1 cs => simp [settleLoop]
  | case2 d ds => simp [settleLoop]
  | case3 d ds c cs amount h1 h2 ih =>
    intro s hs
    simp only [settleLoop, if_pos h1, if_pos h2] at hs
    rcases List.mem_append.mp hs with hs | hs
    · by_cases hgt : min d.2 c.2 > 1/100
      · rw [if_pos hgt] at hs
        simp only [List.mem_singleton] at hs
        subst hs
        simp
      · rw [if_neg hgt] at hs
        cases hs
    · rcases ih s hs with ⟨ha, hb⟩
      exact ⟨by simp [ha], by simp [hb]⟩
  | case4 d ds c cs amount h1 h2 ih =>
    intro s hs
    simp only [settleLoop, if_pos h1, if_neg h2] at hs
    rcases List.mem_append.mp hs with hs | hs
    · by_cases hgt : min d.2 c.2 > 1/100
      · rw [if_pos hgt] at hs
        simp only [List.mem_singleton] at hs
        subst hs
        simp
      · rw [if_neg hgt] at hs
        cases hs
    · rcases ih s hs with ⟨ha, hb⟩
      refine ⟨by simp [ha], ?_⟩
      simp only [List.map_cons] at hb ⊢
      simpa using hb
  | case5 d ds c cs amount h1 h2 ih =>
    intro s hs
    simp only [settleLoop, if_neg h1, if_pos h2] at hs
    rcases List.mem_append.mp hs with hs | hs
    · by_cases hgt : min d.2 c.2 > 1/100
      · rw [if_pos hgt] at hs
        simp only [List.mem_singleton] at hs
        subst hs
        simp
      · rw [if_neg hgt] at hs
        cases hs
    · rcases ih s hs with ⟨ha, hb⟩
      exact ⟨by simp [ha], by simp [hb]⟩
  | case6 d ds c cs amount h1 h2 ih =>
    intro s hs
    simp only [settleLoop, if_neg h1, if_neg h2] at hs
    rcases List.mem_append.mp hs with hs | hs
    · by_cases hgt : min d.2 c.2 > 1/100
      · rw [if_pos hgt] at hs
        simp only [List.mem_singleton] at hs
        subst hs
        simp
      · rw [if_neg hgt] at hs
        cases hs
    · rcases ih s hs with ⟨ha, hb⟩
      refine ⟨?_, by simp [hb]⟩
      simp only [List.map_cons] at ha ⊢
      simpa using ha

/-- Each loop iteration emits at most one settlement and permanently
advances at least one cursor, so the output length is bounded by the
total number of matched entries minus one. -/
theorem settleLoop_length_le (ds cs : List (String × ℚ)) :
    ds ≠ [] → cs ≠ [] → (settleLoop ds cs).length + 1 ≤ ds.length + cs.length := by
  induction ds, cs using settleLoop.induct with
  | case1 cs => intro h _; exact absurd rfl h
  | case2 d ds => intro _ h; exact absurd rfl h
  | case3 d ds c cs amount h1 h2 ih =>
    intro _ _
    simp only [settleLoop, if_pos h1, if_pos h2, List.length_append, List.length_cons]
    have hemit := emit_length_le_one d c (min d.2 c.2)
    by_cases hds : ds = []
    · subst hds
      rw [settleLoop_nil_left]
      simp only [List.length_nil]
      omega
    · by_cases hcs : cs = []
      · subst hcs
        rw [settleLoop_nil_right]
        simp only [List.length_nil]
        omega
      · have := ih hds hcs
        omega
  | case4 d ds c cs amount h1 h2 ih =>
    intro _ _
    have ha : amount = min d.2 c.2 := rfl
    rw [ha] at ih
    simp only [settleLoop, if_pos h1, if_neg h2, List.length_append, List.length_cons]
    have hemit := emit_length_le_one d c (min d.2 c.2)
    by_cases hds : ds = []
    · subst hds
      rw [settleLoop_nil_left]
      simp only [List.length_nil]
      omega
    · have := ih hds (by simp)
      simp only [List.length_cons] at this
      omega
  | case5 d ds c cs amount h1 h2 ih =>
    intro _ _
    simp only [settleLoop, if_neg h1, if_pos h2, List.length_append, List.length_cons]
    have hemit := emit_length_le_one d c (min d.2 c.2)
    by_cases hds : ds = []
    · subst hds
      rw [settleLoop_nil_left]
      simp only [List.length_nil]
      omega
    · by_cases hcs : cs = []
      · subst hcs
        rw [settleLoop_nil_right]
        simp only [List.length_nil]
        omega
      · have := ih hds hcs
        omega
  | case6 d ds c cs amount h1 h2 ih =>
    intro _ _
    have ha : amount = min d.2 c.2 := rfl
    rw [ha] at ih
    simp only [settleLoop, if_neg h1, if_neg h2, List.length_append, List.length_cons]
    have hemit := emit_length_le_one d c (min d.2 c.2)
    by_cases hcs : cs = []
    · subst hcs
      rw [settleLoop_nil_right]
      simp only [List.length_nil]
      omega
    · have := ih (by simp) hcs
      simp only [List.length_cons] at this
      omega

/-- One unfolding of the greedy loop, phrased with the source's advance
conditions (`debtor.amount < 0.01` / `creditor.amount < 0.01` after
subtracting the matched minimum). -/
theorem settleLoop_cons (d c : String × ℚ) (ds cs : List (String × ℚ)) :
    settleLoop (d :: ds) (c :: cs)
      = (if min d.2 c.2 > 1/100
          then [⟨d.1, c.1, round2 (min d.2 c.2)⟩] else [])
        ++ settleLoop
            (if d.2 - min d.2 c.2 < 1/100 then ds else (d.1, d.2 - min d.2 c.2) :: ds)
            (if c.2 - min d.2 c.2 < 1/100 then cs else (c.1, c.2 - min d.2 c.2) :: cs) := by
  rcases le_or_lt d.2 c.2 with h | h
  · have hmin : min d.2 c.2 = d.2 := min_eq_left h
    have hdc : d.2 - min d.2 c.2 < 1/100 := by rw [hmin]; norm_num
    rw [if_pos hdc]
    simp only [settleLoop, if_pos h]
    split_ifs <;> rfl
  · have hmin : min d.2 c.2 = c.2 := min_eq_right h.le
    have hcc : c.2 - min d.2 c.2 < 1/100 := by rw [hmin]; norm_num
    have hnle : ¬ d.2 ≤ c.2 := not_le.mpr h
    rw [if_pos hcc]
    simp only [settleLoop, if_neg hnle]
    split_ifs <;> rfl

/-- After one iteration, the combined length of the two cursor lists
strictly decreases: at least one cursor always advances. -/
theorem settleLoop_cons_length (d c : String × ℚ) (ds cs : List (String × ℚ)) :
    (if d.2 - min d.2 c.2 < 1/100 then ds else (d.1, d.2 - min d.2 c.2) :: ds).length
      + (if c.2 - min d.2 c.2 < 1/100 then cs else (c.1, c.2 - min d.2 c.2) :: cs).length
      < (d :: ds).length + (c :: cs).length := by
  rcases le_or_lt d.2 c.2 with h | h
  · have hmin : min d.2 c.2 = d.2 := min_eq_left h
    have hdc : d.2 - min d.2 c.2 < 1/100 := by rw [hmin]; norm_num
    rw [if_pos hdc]
    split_ifs <;> simp [List.length_cons] <;> omega
  · have hmin : min d.2 c.2 = c.2 := min_eq_right h.le
    have hcc : c.2 - min d.2 c.2 < 1/100 := by rw [hmin]; norm_num
    rw [if_pos hcc]
    split_ifs <;> simp [List.length_cons] <;> omega

/-- Evaluating `round2` through `Int.floor` on a bracketed value. -/
theorem round2_eq_of (q : ℚ) (z : ℤ) (h1 : (z : ℚ) ≤ q * 100 + 1/2)
    (h2 : q * 100 + 1/2 < z + 1) : round2 q = (z : ℚ) / 100 := by
  unfold round2
  rw [show ⌊q * 100 + 1/2⌋ = z from Int.floor_eq_iff.mpr ⟨h1, by linarith⟩]

theorem round2_250 : round2 (250 : ℚ) = 250 := by
  rw [round2_eq_of 250 25000 (by norm_num) (by norm_num)]
  norm_num

theorem round2_5 : round2 (5 : ℚ) = 5 := by
  rw [round2_eq_of 5 500 (by norm_num) (by norm_num)]
  norm_num

/-! ### Balance-mapping membership helpers -/

theorem val_unique_of_nodup (b : Balances) (hd : (b.map Prod.fst).Nodup)
    {n : String} {v w : ℚ} (h1 : (n, v) ∈ b) (h2 : (n, w) ∈ b) : v = w := by
  induction b with
  | nil => cases h1
  | cons p b ih =>
    simp only [List.map_cons, List.nodup_cons] at hd
    rcases List.mem_cons.mp h1 with h1e | h1t
    · rcases List.mem_cons.mp h2 with h2e | h2t
      · have := h1e.trans h2e.symm
        simpa using this
      · exfalso
        apply hd.1
        rw [← h1e]
        exact List.mem_map.mpr ⟨(n, w), h2t, rfl⟩
    · rcases List.mem_cons.mp h2 with h2e | h2t
      · exfalso
        apply hd.1
        rw [← h2e]
        exact List.mem_map.mpr ⟨(n, v), h1t, rfl⟩
      · exact ih hd.2 h1t h2t

theorem getVal_eq_some_of_mem_nodup (b : Balances) (hd : (b.map Prod.fst).Nodup)
    {n : String} {v : ℚ} (h : (n, v) ∈ b) : getVal b n = some v := by
  induction b with
  | nil => cases h
  | cons p b ih =>
    simp only [List.map_cons, List.nodup_cons] at hd
    rcases List.mem_cons.mp h with he | ht
    · rw [← he]
      simp [getVal, List.find?_cons]
    · have hne : ¬(p.1 = n) := by
        intro h1
        exact hd.1 (h1 ▸ List.mem_map.mpr ⟨(n, v), ht, rfl⟩)
      have hih := ih hd.2 ht
      simp only [getVal] at hih
      simp [getVal, List.find?_cons, hne, hih]

theorem from_mem_debtors (balances : Balances) {x : String}
    (hx : x ∈ (sortByAmountDesc (toDebtors balances)).map Prod.fst) :
    ∃ v, (x, v) ∈ balances ∧ v < -(1/100) := by
  rcases List.mem_map.mp hx with ⟨p, hp, rfl⟩
  have hp2 : p ∈ toDebtors balances := by
    simpa [sortByAmountDesc] using hp
  rcases List.mem_map.mp hp2 with ⟨q, hq, rfl⟩
  have hcond := List.of_mem_filter hq
  exact ⟨q.2, List.mem_of_mem_filter hq, by simpa using hcond⟩

theorem to_mem_creditors (balances : Balances) {x : String}
    (hx : x ∈ (sortByAmountDesc (toCreditors balances)).map Prod.fst) :
    ∃ v, (x, v) ∈ balances ∧ v > 1/100 := by
  rcases List.mem_map.mp hx with ⟨p, hp, rfl⟩
  have hp2 : p ∈ toCreditors balances := by
    simpa [sortByAmountDesc] using hp
  have hcond := List.of_mem_filter hp2
  exact ⟨p.2, List.mem_of_mem_filter hp2, by simpa using hcond⟩

theorem getVal_addVal_ne (b : Balances) (name : String) (x : ℚ) {m : String}
    (h : m ≠ name) : getVal (addVal b name x) m = getVal b m := by
  rw [addVal_eq_map_keyed,
    getVal_map_keyed b (fun k v => if k = name then v + x else v) m]
  rcases getVal b m with _ | v
  · rfl
  · simp [h]

theorem applySettlements_getVal_ne (l : List Settlement) :
    ∀ (b : Balances) (m : String), (∀ s ∈ l, s.«from» ≠ m ∧ s.«to» ≠ m) →
      getVal (applySettlements b l) m = getVal b m := by
  induction l with
  | nil => intro b m _; rfl
  | cons s l ih =>
    intro b m h
    have hs := h s (by simp)
    have hrec := ih (applySettlement b s) m (fun t ht => h t (by simp [ht]))
    unfold applySettlements at hrec ⊢
    rw [List.foldl_cons, hrec]
    unfold applySettlement
    rw [getVal_addVal_ne _ _ _ (Ne.symm hs.2), getVal_addVal_ne _ _ _ (Ne.symm hs.1)]

/-! ### Claims about `calculateSettlements` -/

/-- **C1, counterexample**: as stated ("for every balance mapping,
applying every returned settlement yields a mapping in which every
member's balance has absolute value at most 0.01"), the claim is false:
a single member with balance 1 produces no debtors, so no settlement is
emitted and the balance 1 > 0.01 survives. -/
theorem claim_C1_counterexample :
    ¬ (∀ p ∈ applySettlements [("A", (1:ℚ))] (calculateSettlements [("A", (1:ℚ))]),
        |p.2| ≤ 1/100) := by
  intro h
  have hdeb : toDebtors [("A", (1:ℚ))] = [] := by
    norm_num [toDebtors, List.filter]
  have hsett : calculateSettlements [("A", (1:ℚ))] = [] := by
    unfold calculateSettlements
    rw [hdeb]
    simp only [sortByAmountDesc, List.mergeSort_nil]
    exact settleLoop_nil_left _
  rw [hsett] at h
  have := h ("A", 1) (by simp [applySettlements])
  norm_num at this

/-- **C1, amended**: for every balance mapping with distinct member
names, every member whose input balance lies within the epsilon band
(|balance| ≤ 0.01) appears in no returned settlement; applying every
returned settlement leaves that member's balance unchanged, hence still
of absolute value at most 0.01.  (The universal bound over all members
fails, see `claim_C1_counterexample`.) -/
theorem claim_C1_amended_epsilon_band (balances : Balances)
    (hd : (balances.map Prod.fst).Nodup) (n : String) (v : ℚ)
    (hmem : (n, v) ∈ balances) (hband : |v| ≤ 1/100) :
    getVal (applySettlements balances (calculateSettlements balances)) n = some v
    ∧ |v| ≤ 1/100 := by
  refine ⟨?_, hband⟩
  have habs := abs_le.mp hband
  have hnames : ∀ s ∈ calculateSettlements balances, s.«from» ≠ n ∧ s.«to» ≠ n := by
    intro s hs
    have hnm := settleLoop_names _ _ s (by simpa [calculateSettlements] using hs)
    constructor
    · intro heq
      rcases from_mem_debtors balances (heq ▸ hnm.1) with ⟨w, hw, hw2⟩
      have := val_unique_of_nodup balances hd hw hmem
      linarith
    · intro heq
      rcases to_mem_creditors balances (heq ▸ hnm.2) with ⟨w, hw, hw2⟩
      have := val_unique_of_nodup balances hd hw hmem
      linarith
  rw [applySettlements_getVal_ne _ _ _ hnames]
  exact getVal_eq_some_of_mem_nodup balances hd hmem

/-- Witness for the amended C1: a lone member inside the band keeps
balance 1/200 untouched. -/
theorem claim_C1_amended_epsilon_band_witness :
    getVal (applySettlements [("A", (1/200 : ℚ))]
        (calculateSettlements [("A", (1/200 : ℚ))])) "A" = some (1/200)
    ∧ |(1/200 : ℚ)| ≤ 1/100 :=
  claim_C1_amended_epsilon_band [("A", (1/200 : ℚ))] (by decide) "A" (1/200)
    (List.mem_singleton.mpr rfl) (abs_le.mpr (by norm_num))

/-- **C6** (no self-settlement, settled members excluded): for every
balance mapping with distinct member names, every returned settlement
has `from ≠ to`, its `from` holds an input balance strictly below -0.01
and its `to` an input balance strictly above 0.01; members inside the
epsilon band appear in no settlement. -/
theorem claim_C6_no_self_settlement (balances : Balances)
    (hd : (balances.map Prod.fst).Nodup) :
    ∀ s ∈ calculateSettlements balances,
      s.«from» ≠ s.«to»
      ∧ (∃ v, (s.«from», v) ∈ balances ∧ v < -(1/100))
      ∧ (∃ v, (s.«to», v) ∈ balances ∧ v > 1/100) := by
  intro s hs
  have hnames := settleLoop_names _ _ s (by simpa [calculateSettlements] using hs)
  have hf := from_mem_debtors balances hnames.1
  have ht := to_mem_creditors balances hnames.2
  refine ⟨?_, hf, ht⟩
  rcases hf with ⟨v, hv, hv2⟩
  rcases ht with ⟨w, hw, hw2⟩
  intro heq
  rw [heq] at hv
  have := val_unique_of_nodup balances hd hv hw
  linarith

/-- Witness for C6: on balances A: -5, B: 5 the single settlement
A→B 5 has distinct endpoints with the required signs. -/
theorem claim_C6_no_self_settlement_witness :
    ((⟨"A", "B", 5⟩ : Settlement).«from» ≠ (⟨"A", "B", 5⟩ : Settlement).«to»)
    ∧ (∃ v, ((⟨"A", "B", 5⟩ : Settlement).«from», v) ∈ [("A", (-5:ℚ)), ("B", 5)]
        ∧ v < -(1/100))
    ∧ (∃ v, ((⟨"A", "B", 5⟩ : Settlement).«to», v) ∈ [("A", (-5:ℚ)), ("B", 5)]
        ∧ v > 1/100) := by
  have hdeb : toDebtors [("A", (-5:ℚ)), ("B", 5)] = [("A", 5)] := by
    norm_num [toDebtors, List.filter]
  have hcred : toCreditors [("A", (-5:ℚ)), ("B", 5)] = [("B", 5)] := by
    norm_num [toCreditors, List.filter]
  have hsortd : sortByAmountDesc [("A", (5:ℚ))] = [("A", 5)] := by
    unfold sortByAmountDesc
    apply List.mergeSort_of_sorted
    simp
  have hsortc : sortByAmountDesc [("B", (5:ℚ))] = [("B", 5)] := by
    unfold sortByAmountDesc
    apply List.mergeSort_of_sorted
    simp
  have hset : calculateSettlements [("A", (-5:ℚ)), ("B", 5)] = [⟨"A", "B", 5⟩] := by
    unfold calculateSettlements
    rw [hdeb, hcred, hsortd, hsortc]
    rw [settleLoop_cons]
    norm_num [min_def, round2_5]
    exact settleLoop_nil_left _
  exact claim_C6_no_self_settlement [("A", (-5:ℚ)), ("B", 5)] (by decide)
    ⟨"A", "B", 5⟩ (by rw [hset]; simp)

/-- **C7** (termination of the greedy loop): one iteration matches
exactly the minimum of the two head amounts, emits at most one
settlement, and the source's two advance tests (`remaining < 0.01` on
each side) drop at least one list head, so the combined cursor measure
strictly decreases and the loop totally computes a finite list (the
Lean function is total by this very measure). -/
theorem claim_C7_loop_termination (d c : String × ℚ) (ds cs : List (String × ℚ)) :
    settleLoop (d :: ds) (c :: cs)
        = (if min d.2 c.2 > 1/100
            then [⟨d.1, c.1, round2 (min d.2 c.2)⟩] else [])
          ++ settleLoop
              (if d.2 - min d.2 c.2 < 1/100 then ds else (d.1, d.2 - min d.2 c.2) :: ds)
              (if c.2 - min d.2 c.2 < 1/100 then cs else (c.1, c.2 - min d.2 c.2) :: cs)
      ∧ (if d.2 - min d.2 c.2 < 1/100 then ds else (d.1, d.2 - min d.2 c.2) :: ds).length
          + (if c.2 - min d.2 c.2 < 1/100 then cs else (c.1, c.2 - min d.2 c.2) :: cs).length
        < (d :: ds).length + (c :: cs).length :=
  ⟨settleLoop_cons d c ds cs, settleLoop_cons_length d c ds cs⟩

/-- **C8** (concrete scenario A): one expense of 1000 paid by Alice and
split four ways gives balances Alice 750, Bob/Carol/Dave -250 each, and
the settlements Bob→Alice 250, Carol→Alice 250, Dave→Alice 250 in the
order the algorithm emits them. -/
theorem claim_C8_scenarioA :
    calculateBalances ["Alice", "Bob", "Carol", "Dave"]
        [⟨"1", "dinner", 1000, "Alice", ["Alice", "Bob", "Carol", "Dave"], 0⟩]
      = [("Alice", 750), ("Bob", -250), ("Carol", -250), ("Dave", -250)]
    ∧ calculateSettlements [("Alice", 750), ("Bob", -250), ("Carol", -250), ("Dave", -250)]
      = [⟨"Bob", "Alice", 250⟩, ⟨"Carol", "Alice", 250⟩, ⟨"Dave", "Alice", 250⟩] := by
  constructor
  · have hinit : ["Alice", "Bob", "Carol", "Dave"].foldl setZero []
        = [("Alice", (0:ℚ)), ("Bob", 0), ("Carol", 0), ("Dave", 0)] := by
      simp [setZero]
    unfold calculateBalances
    rw [hinit, List.foldl_cons, List.foldl_nil]
    simp [applyExpense, getVal, addVal]
    norm_num
  · have hdeb : toDebtors [("Alice", (750:ℚ)), ("Bob", -250), ("Carol", -250), ("Dave", -250)]
        = [("Bob", 250), ("Carol", 250), ("Dave", 250)] := by
      norm_num [toDebtors, List.filter]
    have hcred : toCreditors [("Alice", (750:ℚ)), ("Bob", -250), ("Carol", -250), ("Dave", -250)]
        = [("Alice", 750)] := by
      norm_num [toCreditors, List.filter]
    have hsortd : sortByAmountDesc [("Bob", (250:ℚ)), ("Carol", 250), ("Dave", 250)]
        = [("Bob", 250), ("Carol", 250), ("Dave", 250)] := by
      unfold sortByAmountDesc
      apply List.mergeSort_of_sorted
      norm_num [List.pairwise_cons]
    have hsortc : sortByAmountDesc [("Alice", (750:ℚ))] = [("Alice", 750)] := by
      unfold sortByAmountDesc
      apply List.mergeSort_of_sorted
      simp
    unfold calculateSettlements
    rw [hdeb, hcred, hsortd, hsortc]
    rw [settleLoop_cons]
    norm_num [min_def, round2_250]
    rw [settleLoop_cons]
    norm_num [min_def, round2_250]
    rw [settleLoop_cons]
    norm_num [min_def, round2_250]
    exact settleLoop_nil_left _

/-- **C10** (transaction-count bound): with D members below -0.01 and C
members above 0.01, the greedy loop emits at most D + C - 1 settlements
when both sides are non-empty, and none otherwise. -/
theorem claim_C10_transaction_bound (balances : Balances) :
    (1 ≤ (balances.filter (fun p => p.2 < -(1/100))).length →
     1 ≤ (balances.filter (fun p => p.2 > 1/100)).length →
     (calculateSettlements balances).length
       ≤ (balances.filter (fun p => p.2 < -(1/100))).length
         + (balances.filter (fun p => p.2 > 1/100)).length - 1)
    ∧ (((balances.filter (fun p => p.2 < -(1/100))).length = 0
        ∨ (balances.filter (fun p => p.2 > 1/100)).length = 0) →
       (calculateSettlements balances).length = 0) := by
  have hlenD : (sortByAmountDesc (toDebtors balances)).length
      = (balances.filter (fun p => p.2 < -(1/100))).length := by
    simp [sortByAmountDesc, toDebtors]
  have hlenC : (sortByAmountDesc (toCreditors balances)).length
      = (balances.filter (fun p => p.2 > 1/100)).length := by
    simp [sortByAmountDesc, toCreditors]
  constructor
  · intro hD hC
    have hdne : sortByAmountDesc (toDebtors balances) ≠ [] := by
      intro h
      rw [h] at hlenD
      simp only [List.length_nil] at hlenD
      omega
    have hcne : sortByAmountDesc (toCreditors balances) ≠ [] := by
      intro h
      rw [h] at hlenC
      simp only [List.length_nil] at hlenC
      omega
    have hle := settleLoop_length_le _ _ hdne hcne
    unfold calculateSettlements
    omega
  · rintro (h | h)
    · have h0 : sortByAmountDesc (toDebtors balances) = [] :=
        List.length_eq_zero.mp (by omega)
      unfold calculateSettlements
      rw [h0, settleLoop_nil_left]
      rfl
    · have h0 : sortByAmountDesc (toCreditors balances) = [] :=
        List.length_eq_zero.mp (by omega)
      unfold calculateSettlements
      rw [h0, settleLoop_nil_right]
      rfl

/-- Witness for C10: with one debtor and one creditor the bound is
1 + 1 - 1 = 1. -/
theorem claim_C10_transaction_bound_witness :
    (calculateSettlements [("A", (-5:ℚ)), ("B", 5)]).length ≤ 1 := by
  have e1 : ([("A", (-5:ℚ)), ("B", 5)].filter (fun p => p.2 < -(1/100))).length = 1 := by
    norm_num [List.filter]
  have e2 : ([("A", (-5:ℚ)), ("B", 5)].filter (fun p => p.2 > 1/100)).length = 1 := by
    norm_num [List.filter]
  have h := (claim_C10_transaction_bound [("A", (-5:ℚ)), ("B", 5)]).1
    (by rw [e1]) (by rw [e2])
  rw [e1, e2] at h
  simpa using h

/-! ### Claim about `escapeCsvField` -/

theorem foldr_doubleQuotes (l : List Char) :
    l.foldr (fun c acc => if c = '"' then '"' :: '"' :: acc else c :: acc) []
      = l.flatMap (fun c => if c = '"' then ['"', '"'] else [c]) := by
  induction l with
  | nil => rfl
  | cons x xs ih =>
    simp only [List.foldr_cons, List.flatMap_cons, ih]
    by_cases h : x = '"'
    · simp [h]
    · simp [h]

/-- **C9** (CSV field escaping): a string with no comma, double quote or
newline is returned unchanged; otherwise the result is the string with
every embedded double quote doubled, enclosed in double quotes. -/
theorem claim_C9_escape_csv_field (s : String) :
    ((s.data.contains ',' || s.data.contains '"' || s.data.contains '\n') = false →
      escapeCsvField s = s)
    ∧ ((s.data.contains ',' || s.data.contains '"' || s.data.contains '\n') = true →
      (escapeCsvField s).data
        = '"' :: s.data.flatMap (fun c => if c = '"' then ['"', '"'] else [c]) ++ ['"']) := by
  constructor
  · intro h
    unfold escapeCsvField
    rw [h]
    simp
  · intro h
    unfold escapeCsvField
    rw [h]
    simp only [if_true, ite_true, String.data_append]
    unfold doubleQuotes
    rw [foldr_doubleQuotes]
    rfl

/-- Witness for C9: a plain field passes through, a comma-bearing field
is quoted. -/
theorem claim_C9_escape_csv_field_witness :
    escapeCsvField "ab" = "ab"
    ∧ (escapeCsvField "a,b").data
        = '"' :: "a,b".data.flatMap (fun c => if c = '"' then ['"', '"'] else [c]) ++ ['"'] :=
  ⟨(claim_C9_escape_csv_field "ab").1 (by decide),
   (claim_C9_escape_csv_field "a,b").2 (by decide)⟩

end ExpenseTracker
